import Mathlib

/-!
Verification of the bounded-concurrency `AsyncQueue` of this repository
(`class AsyncQueue`, with methods `constructor`, `add`, `start`, `pause`,
`clear`, `onEmpty`, the getters `size` / `pending` / `isPaused`, and the
private helpers `_process` and `_checkEmpty`).

Shallow embedding.  The queue's instance fields become the fields of
`QState`; each public method becomes a Lean function `QState → ... → QState`.
The asynchronous part of `_process`
(`Promise.resolve().then(() => entry.task()).then(...).catch(...).finally(...)`)
is modelled by an explicit environment event `Ev.settle i ok`: the promise of
the dispatched task whose entry got id `i` settles, successfully when
`ok = true`.  Its handler runs the source's continuations in source order:
`entry.resolve(result)` / `entry.reject(err)` first (the `.then` / `.catch`
callbacks), then the `.finally` callback `this.running--; this._process();
this._checkEmpty();`.  A `settle` for an id that is not currently running is
a no-op (no such promise exists, so the event cannot fire in the real
program).

Observation logs added to the state (they do not influence control flow):
`dispatchOrder` records each entry at the moment `_process` shifts it off the
backlog and increments `running`; `resolves` / `rejects` record each call of
a completion handle's `resolve` / `reject`; `fired` records each empty
callback invocation performed by `_checkEmpty`.  Entries are identified by
the admission counter `nextTaskId`, empty callbacks by `nextCbId`.

JavaScript particulars kept faithfully:
  * `options.concurrency || 1` and `options.priority || 1` map `0` (the only
    falsy number in our integer model) and absence to `1`;
  * `options.autoStart !== false` is `true` unless the option is literally
    `false`;
  * `this.queue.sort((a, b) => b.priority - a.priority)` is a stable sort
    (ECMAScript 2019 requires `Array.prototype.sort` to be stable) by
    descending priority; it is embedded as the stable insertion sort
    `sortByPriorityDesc`, which produces the unique permutation that is
    descending in priority and keeps the relative order of equal-priority
    elements.
-/

namespace AsyncQueue

/-- One backlog entry: the admission id stands for the `task`/`resolve`/
`reject` closures of the source's entry object, `priority` is the stored
priority. -/
structure Entry where
  id : Nat
  priority : Int
  deriving DecidableEq

/-- The instance state of an `AsyncQueue`, plus observation logs. -/
structure QState where
  concurrency : Nat
  autoStart : Bool
  queue : List Entry
  runningIds : List Nat
  paused : Bool
  emptyCallbacks : List Nat
  nextTaskId : Nat
  nextCbId : Nat
  dispatchOrder : List Entry
  resolves : List Nat
  rejects : List Nat
  fired : List Nat
  deriving DecidableEq

/-- JavaScript `x || 1` for an optional number: `undefined` and the falsy
`0` both yield the default `1`. -/
def jsOr1 (p : Option Int) : Int :=
  match p with
  | none => 1
  | some v => if v = 0 then 1 else v

/-- JavaScript `options.concurrency || 1` on a natural number option. -/
def jsOrNat1 (c : Option Nat) : Nat :=
  match c with
  | none => 1
  | some v => if v = 0 then 1 else v

/-- The constructor: `concurrency = options.concurrency || 1`,
`autoStart = options.autoStart !== false`, empty backlog, `running = 0`,
not paused, no empty callbacks. -/
def mkQueue (c : Option Nat) (a : Option Bool) : QState :=
  { concurrency := jsOrNat1 c
    autoStart := match a with | some false => false | _ => true
    queue := []
    runningIds := []
    paused := false
    emptyCallbacks := []
    nextTaskId := 0
    nextCbId := 0
    dispatchOrder := []
    resolves := []
    rejects := []
    fired := [] }

/-- Getter `size`: `this.queue.length`. -/
def QState.size (s : QState) : Nat := s.queue.length

/-- Getter `pending`: `this.running`. -/
def QState.pending (s : QState) : Nat := s.runningIds.length

/-- Getter `isPaused`: `this.paused`. -/
def QState.isPaused (s : QState) : Bool := s.paused

/-- Ids of a list of entries. -/
def ids (l : List Entry) : List Nat := l.map Entry.id

/-- How often completion handle `i` has been settled (resolved or
rejected). -/
def settledCount (s : QState) (i : Nat) : Nat :=
  (s.resolves ++ s.rejects).count i

/-- The same state with the settlement logs replaced: used to state that
dispatching is oblivious to which handles were resolved or rejected. -/
def withLogs (s : QState) (r j : List Nat) : QState :=
  { s with resolves := r, rejects := j }

/-- Stable insertion of an entry into a descending-priority list: the entry
goes before the first element whose priority is `≤` its own, hence after all
strictly greater ones and before equal-priority elements that were admitted
later in the recursion of `sortByPriorityDesc`. -/
def insertDesc (e : Entry) : List Entry → List Entry
  | [] => [e]
  | x :: xs => if x.priority ≤ e.priority then e :: x :: xs else x :: insertDesc e xs

/-- Embedding of `this.queue.sort((a, b) => b.priority - a.priority)`:
the stable descending sort by priority (insertion sort, which is stable). -/
def sortByPriorityDesc : List Entry → List Entry
  | [] => []
  | x :: xs => insertDesc x (sortByPriorityDesc xs)

/-- The backlog order maintained by the queue: strictly higher priority
first, and among equal priorities the smaller (earlier-admitted) id first.
This is what stability of the admission re-sort buys. -/
def entryLE (a b : Entry) : Prop :=
  b.priority < a.priority ∨ (a.priority = b.priority ∧ a.id < b.id)

/-- Insertion of an entry after every element of priority `≥` its own:
the position a freshly pushed entry ends up in when an already
stably-sorted backlog is stably re-sorted. -/
def insertLast (e : Entry) : List Entry → List Entry
  | [] => [e]
  | x :: xs => if x.priority < e.priority then e :: x :: xs else x :: insertLast e xs

/-- The body of `_checkEmpty`: when the backlog is empty and nothing runs,
snapshot the callbacks, clear the list and invoke each (recorded in
`fired`). -/
def _checkEmpty (s : QState) : QState :=
  if s.queue.length = 0 ∧ s.runningIds.length = 0 then
    { s with emptyCallbacks := [], fired := s.fired ++ s.emptyCallbacks }
  else s

/-- The `while` loop of `_process`, with fuel: while
`running < concurrency` and the backlog is non-empty, shift the head entry,
increment `running` (its id joins `runningIds`) and record the dispatch.
Each iteration consumes one backlog element, so fuel `s.queue.length` makes
the fueled loop equal to the source's unbounded loop. -/
def processGo : Nat → QState → QState
  | 0, s => s
  | fuel + 1, s =>
    if s.runningIds.length < s.concurrency then
      match s.queue with
      | [] => s
      | e :: rest =>
          processGo fuel
            { s with queue := rest
                     runningIds := s.runningIds ++ [e.id]
                     dispatchOrder := s.dispatchOrder ++ [e] }
    else s

/-- `_process`: return at once when paused, else run the dispatch loop. -/
def _process (s : QState) : QState :=
  if s.paused then s else processGo s.queue.length s

/-- `add(task, options)`: build the entry with `priority: options.priority
|| 1` and a fresh id, push it, re-sort the backlog, and if
`this.autoStart && !this.paused` run `_process` synchronously. -/
def add (s : QState) (p : Option Int) : QState :=
  let e : Entry := { id := s.nextTaskId, priority := jsOr1 p }
  let s1 : QState :=
    { s with nextTaskId := s.nextTaskId + 1
             queue := sortByPriorityDesc (s.queue ++ [e]) }
  if s1.autoStart && !s1.paused then _process s1 else s1

/-- `start()`: clear `paused`, then `_process()`. -/
def start (s : QState) : QState := _process { s with paused := false }

/-- `pause()`: set `paused`. -/
def pause (s : QState) : QState := { s with paused := true }

/-- `clear()`: `this.queue = []`. -/
def clear (s : QState) : QState := { s with queue := [] }

/-- `onEmpty(callback)`: push the callback, and if the backlog is empty and
nothing runs, call `_checkEmpty()` (which fires it synchronously). -/
def onEmpty (s : QState) : QState :=
  let s1 : QState :=
    { s with emptyCallbacks := s.emptyCallbacks ++ [s.nextCbId]
             nextCbId := s.nextCbId + 1 }
  if s1.queue.length = 0 ∧ s1.runningIds.length = 0 then _checkEmpty s1 else s1

/-- The settlement of the dispatched task with id `i` (its promise resolved
when `ok`, rejected otherwise): run `entry.resolve` / `entry.reject`, then
the `.finally` continuation `this.running--; this._process();
this._checkEmpty();`.  A no-op unless `i` is actually running. -/
def settle (s : QState) (i : Nat) (ok : Bool) : QState :=
  if i ∈ s.runningIds then
    let s1 : QState :=
      if ok then { s with resolves := s.resolves ++ [i] }
      else { s with rejects := s.rejects ++ [i] }
    let s2 : QState := { s1 with runningIds := s1.runningIds.erase i }
    _checkEmpty (_process s2)
  else s

/-- The events a harness (and the cooperative scheduler) can perform on a
queue. -/
inductive Ev where
  | add (p : Option Int)
  | start
  | pause
  | clear
  | onEmpty
  | settle (i : Nat) (ok : Bool)
  deriving DecidableEq

/-- Interpretation of one event. -/
def step (s : QState) : Ev → QState
  | .add p => add s p
  | .start => start s
  | .pause => pause s
  | .clear => clear s
  | .onEmpty => onEmpty s
  | .settle i ok => settle s i ok

/-- Interpretation of an event sequence. -/
def run (s : QState) (evs : List Ev) : QState := evs.foldl step s

end AsyncQueue

namespace AsyncQueue

/-- The inductive invariant of reachable queue states: backlog and dispatch
ids are admission ids already handed out; no id is dispatched twice; backlog
ids are distinct and never already dispatched; the multiset of dispatched
ids is exactly the running ids together with the settled ones; at most
`concurrency` tasks run; the backlog is stably sorted; callback bookkeeping
mirrors this for registration ids. -/
structure Inv (s : QState) : Prop where
  queue_lt : ∀ e ∈ s.queue, e.id < s.nextTaskId
  disp_lt : ∀ e ∈ s.dispatchOrder, e.id < s.nextTaskId
  disp_nodup : (ids s.dispatchOrder).Nodup
  queue_disp : ∀ e ∈ s.queue, e.id ∉ ids s.dispatchOrder
  queue_nodup : (ids s.queue).Nodup
  perm : (ids s.dispatchOrder).Perm (s.runningIds ++ s.resolves ++ s.rejects)
  run_le : s.runningIds.length ≤ s.concurrency
  sorted : s.queue.Pairwise entryLE
  cb_lt : ∀ i ∈ s.emptyCallbacks, i < s.nextCbId
  fired_lt : ∀ i ∈ s.fired, i < s.nextCbId
  fired_nodup : s.fired.Nodup
  cb_nodup : s.emptyCallbacks.Nodup
  cb_fired : ∀ i ∈ s.emptyCallbacks, i ∉ s.fired

theorem processGo_spec (fuel : Nat) : ∀ s : QState, ∃ k, k ≤ s.queue.length ∧
    (processGo fuel s).queue = s.queue.drop k ∧
    (processGo fuel s).runningIds = s.runningIds ++ ids (s.queue.take k) ∧
    (processGo fuel s).dispatchOrder = s.dispatchOrder ++ s.queue.take k ∧
    (processGo fuel s).concurrency = s.concurrency ∧
    (processGo fuel s).autoStart = s.autoStart ∧
    (processGo fuel s).paused = s.paused ∧
    (processGo fuel s).emptyCallbacks = s.emptyCallbacks ∧
    (processGo fuel s).nextTaskId = s.nextTaskId ∧
    (processGo fuel s).nextCbId = s.nextCbId ∧
    (processGo fuel s).resolves = s.resolves ∧
    (processGo fuel s).rejects = s.rejects ∧
    (processGo fuel s).fired = s.fired := by
  induction fuel with
  | zero =>
    intro s
    exact ⟨0, by simp [processGo, ids]⟩
  | succ fuel ih =>
    intro s
    by_cases h : s.runningIds.length < s.concurrency
    · cases hq : s.queue with
      | nil => exact ⟨0, by simp [processGo, h, hq, ids]⟩
      | cons e rest =>
        obtain ⟨k, hk, h1, h2, h3, h4, h5, h6, h7, h8, h9, h10, h11, h12⟩ :=
          ih { s with queue := rest
                      runningIds := s.runningIds ++ [e.id]
                      dispatchOrder := s.dispatchOrder ++ [e] }
        refine ⟨k + 1, ?_, ?_⟩
        · simpa [hq] using Nat.succ_le_succ hk
        · simp only [processGo, h, hq, if_pos, List.drop_succ_cons, List.take_succ_cons]
          simp only [QState.mk.injEq] at *
          refine ⟨by simpa using h1, ?_, ?_, by simpa using h4, by simpa using h5,
            by simpa using h6, by simpa using h7, by simpa using h8, by simpa using h9,
            by simpa using h10, by simpa using h11, by simpa using h12⟩
          · simp only [ids] at h2 ⊢
            simpa [List.append_assoc] using h2
          · simpa [List.append_assoc] using h3
    · exact ⟨0, by simp [processGo, h, ids]⟩

theorem processGo_le (fuel : Nat) : ∀ s : QState,
    s.runningIds.length ≤ s.concurrency →
    (processGo fuel s).runningIds.length ≤ s.concurrency := by
  induction fuel with
  | zero => intro s h; simpa [processGo] using h
  | succ fuel ih =>
    intro s h
    by_cases hc : s.runningIds.length < s.concurrency
    · cases hq : s.queue with
      | nil => simpa [processGo, hc, hq] using h
      | cons e rest =>
        simp only [processGo, hc, hq, if_pos]
        exact ih _ (by simpa using hc)
    · simpa [processGo, hc] using h

end AsyncQueue

namespace AsyncQueue

theorem insertDesc_perm (e : Entry) (l : List Entry) :
    (insertDesc e l).Perm (e :: l) := by
  induction l with
  | nil => simp [insertDesc]
  | cons x xs ih =>
    by_cases h : x.priority ≤ e.priority
    · simp [insertDesc, h]
    · simp only [insertDesc, if_neg h]
      exact ((ih.cons x).trans (List.Perm.swap e x xs))

theorem sortByPriorityDesc_perm (l : List Entry) :
    (sortByPriorityDesc l).Perm l := by
  induction l with
  | nil => simp [sortByPriorityDesc]
  | cons x xs ih =>
    exact (insertDesc_perm x (sortByPriorityDesc xs)).trans (ih.cons x)

theorem mem_sortByPriorityDesc {a : Entry} {l : List Entry} :
    a ∈ sortByPriorityDesc l ↔ a ∈ l :=
  (sortByPriorityDesc_perm l).mem_iff

theorem insertLast_perm (e : Entry) (l : List Entry) :
    (insertLast e l).Perm (e :: l) := by
  induction l with
  | nil => simp [insertLast]
  | cons x xs ih =>
    by_cases h : x.priority < e.priority
    · simp [insertLast, h]
    · simp only [insertLast, if_neg h]
      exact ((ih.cons x).trans (List.Perm.swap e x xs))

theorem mem_insertLast {a e : Entry} {l : List Entry} :
    a ∈ insertLast e l ↔ a = e ∨ a ∈ l := by
  rw [(insertLast_perm e l).mem_iff]; simp

theorem insertDesc_of_all_le (x : Entry) (t : List Entry)
    (h : ∀ y ∈ t, y.priority ≤ x.priority) : insertDesc x t = x :: t := by
  cases t with
  | nil => rfl
  | cons z t' => simp [insertDesc, h z (by simp)]

theorem insertLast_of_all_lt (e : Entry) (t : List Entry)
    (h : ∀ y ∈ t, y.priority < e.priority) : insertLast e t = e :: t := by
  cases t with
  | nil => rfl
  | cons z t' => simp [insertLast, h z (by simp)]

theorem sortByPriorityDesc_append_max (l : List Entry) (e : Entry)
    (h : ∀ x ∈ l, x.priority < e.priority) :
    sortByPriorityDesc (l ++ [e]) = e :: sortByPriorityDesc l := by
  induction l with
  | nil => rfl
  | cons x l' ih =>
    have hx : x.priority < e.priority := h x (by simp)
    have : sortByPriorityDesc ((x :: l') ++ [e]) =
        insertDesc x (e :: sortByPriorityDesc l') := by
      simp only [List.cons_append, sortByPriorityDesc, List.append_eq]
      rw [ih (fun y hy => h y (by simp [hy]))]
    rw [this]
    simp [insertDesc, not_le.mpr hx, sortByPriorityDesc]

theorem sortByPriorityDesc_append_sorted (q : List Entry) (e : Entry)
    (hq : q.Pairwise (fun a b => b.priority ≤ a.priority)) :
    sortByPriorityDesc (q ++ [e]) = insertLast e q := by
  induction q with
  | nil => rfl
  | cons x q' ih =>
    have hx : ∀ y ∈ q', y.priority ≤ x.priority := fun y hy =>
      (List.pairwise_cons.mp hq).1 y hy
    have hq' : q'.Pairwise (fun a b => b.priority ≤ a.priority) :=
      (List.pairwise_cons.mp hq).2
    have hstep : sortByPriorityDesc ((x :: q') ++ [e]) =
        insertDesc x (insertLast e q') := by
      simp only [List.cons_append, sortByPriorityDesc, List.append_eq]
      rw [ih hq']
    rw [hstep]
    by_cases h : x.priority < e.priority
    · have : insertLast e q' = e :: q' :=
        insertLast_of_all_lt e q' (fun y hy => lt_of_le_of_lt (hx y hy) h)
      rw [this]
      simp only [insertDesc, if_neg (not_le.mpr h)]
      rw [insertDesc_of_all_le x q' hx]
      simp [insertLast, h]
    · have hall : ∀ y ∈ insertLast e q', y.priority ≤ x.priority := by
        intro y hy
        rcases mem_insertLast.mp hy with rfl | hy'
        · exact not_lt.mp h
        · exact hx y hy'
      rw [insertDesc_of_all_le x _ hall]
      simp [insertLast, h]

theorem insertLast_pairwise (e : Entry) (q : List Entry)
    (hq : q.Pairwise entryLE) (hid : ∀ x ∈ q, x.id < e.id) :
    (insertLast e q).Pairwise entryLE := by
  induction q with
  | nil => simp [insertLast, List.pairwise_singleton]
  | cons x q' ih =>
    have hx : ∀ y ∈ q', entryLE x y := (List.pairwise_cons.mp hq).1
    have hq' : q'.Pairwise entryLE := (List.pairwise_cons.mp hq).2
    by_cases h : x.priority < e.priority
    · simp only [insertLast, if_pos h]
      refine List.pairwise_cons.mpr ⟨?_, hq⟩
      intro y hy
      rcases List.mem_cons.mp hy with rfl | hy'
      · exact Or.inl h
      · refine Or.inl ?_
        rcases hx y hy' with h1 | ⟨h1, _⟩
        · exact lt_trans h1 h
        · exact h1 ▸ h
    · simp only [insertLast, if_neg h]
      refine List.pairwise_cons.mpr ⟨?_, ih hq' (fun y hy => hid y (by simp [hy]))⟩
      intro y hy
      rcases mem_insertLast.mp hy with rfl | hy'
      · rcases lt_or_eq_of_le (not_lt.mp h) with h1 | h1
        · exact Or.inl h1
        · exact Or.inr ⟨h1.symm, hid x (by simp)⟩
      · exact hx y hy'

theorem pairwise_entryLE_prio {q : List Entry} (h : q.Pairwise entryLE) :
    q.Pairwise (fun a b => b.priority ≤ a.priority) := by
  refine h.imp ?_
  intro a b hab
  rcases hab with h1 | ⟨h1, _⟩
  · exact le_of_lt h1
  · exact le_of_eq h1.symm

end AsyncQueue

namespace AsyncQueue

theorem inv_checkEmpty {s : QState} (h : Inv s) : Inv (_checkEmpty s) := by
  unfold _checkEmpty
  split
  case isTrue hc =>
    refine ⟨h.queue_lt, h.disp_lt, h.disp_nodup, h.queue_disp, h.queue_nodup,
      h.perm, h.run_le, h.sorted, ?_, ?_, ?_, ?_, ?_⟩
    · intro i hi; cases hi
    · intro i hi
      rcases List.mem_append.mp hi with hi' | hi'
      · exact h.fired_lt i hi'
      · exact h.cb_lt i hi'
    · exact h.fired_nodup.append h.cb_nodup
        (fun a ha hb => h.cb_fired a hb ha)
    · exact List.nodup_nil
    · intro i hi; cases hi
  case isFalse => exact h

theorem inv_processGo (fuel : Nat) : ∀ s : QState, Inv s → Inv (processGo fuel s) := by
  induction fuel with
  | zero => intro s h; exact h
  | succ fuel ih =>
    intro s h
    by_cases hc : s.runningIds.length < s.concurrency
    · cases hq : s.queue with
      | nil => simpa [processGo, hc, hq] using h
      | cons e rest =>
        simp only [processGo, hc, hq, if_pos]
        apply ih
        have heq : e ∈ s.queue := by rw [hq]; simp
        have hqn : (ids (e :: rest)).Nodup := by rw [← hq]; exact h.queue_nodup
        have hqs : (e :: rest).Pairwise entryLE := by rw [← hq]; exact h.sorted
        refine ⟨?_, ?_, ?_, ?_, ?_, ?_, ?_, ?_, h.cb_lt, h.fired_lt,
          h.fired_nodup, h.cb_nodup, h.cb_fired⟩
        · intro x hx
          exact h.queue_lt x (by rw [hq]; exact List.mem_cons_of_mem e hx)
        · intro x hx
          rcases List.mem_append.mp hx with hx' | hx'
          · exact h.disp_lt x hx'
          · rcases List.mem_singleton.mp hx' with rfl
            exact h.queue_lt x heq
        · show (ids (s.dispatchOrder ++ [e])).Nodup
          have : ids (s.dispatchOrder ++ [e]) = ids s.dispatchOrder ++ [e.id] := by
            simp [ids]
          rw [this]
          exact h.disp_nodup.append (List.nodup_singleton _)
            (by intro a ha hb
                rcases List.mem_singleton.mp hb with rfl
                exact h.queue_disp e heq ha)
        · intro x hx hmem
          have hxq : x ∈ s.queue := by rw [hq]; exact List.mem_cons_of_mem e hx
          have : ids (s.dispatchOrder ++ [e]) = ids s.dispatchOrder ++ [e.id] := by
            simp [ids]
          rw [this] at hmem
          rcases List.mem_append.mp hmem with hm | hm
          · exact h.queue_disp x hxq hm
          · rcases List.mem_singleton.mp hm with hm'
            have hxr : x.id ∈ ids rest := List.mem_map_of_mem Entry.id hx
            have : e.id ∉ ids rest := by
              simp only [ids, List.map_cons, List.nodup_cons] at hqn
              exact hqn.1
            exact this (hm' ▸ hxr)
        · simp only [ids, List.map_cons, List.nodup_cons] at hqn
          exact hqn.2
        · have hperm1 : ids (s.dispatchOrder ++ [e]) = ids s.dispatchOrder ++ [e.id] := by
            simp [ids]
          rw [hperm1]
          have step1 : (ids s.dispatchOrder ++ [e.id]).Perm
              ((s.runningIds ++ s.resolves ++ s.rejects) ++ [e.id]) :=
            h.perm.append_right _
          refine step1.trans ?_
          have : (s.runningIds ++ [e.id]) ++ s.resolves ++ s.rejects =
              s.runningIds ++ ([e.id] ++ (s.resolves ++ s.rejects)) := by
            simp [List.append_assoc]
          rw [this]
          have : (s.runningIds ++ s.resolves ++ s.rejects) ++ [e.id] =
              s.runningIds ++ ((s.resolves ++ s.rejects) ++ [e.id]) := by
            simp [List.append_assoc]
          rw [this]
          exact List.Perm.append_left _ List.perm_append_comm
        · simpa using hc
        · exact (List.pairwise_cons.mp hqs).2
    · simpa [processGo, hc] using h

theorem inv_process {s : QState} (h : Inv s) : Inv (_process s) := by
  unfold _process
  split
  · exact h
  · exact inv_processGo _ s h

end AsyncQueue

namespace AsyncQueue

theorem inv_add {s : QState} (h : Inv s) (p : Option Int) : Inv (add s p) := by
  unfold add
  have hperm : (sortByPriorityDesc
      (s.queue ++ [{ id := s.nextTaskId, priority := jsOr1 p }])).Perm
      (s.queue ++ [{ id := s.nextTaskId, priority := jsOr1 p }]) :=
    sortByPriorityDesc_perm _
  have hmem : ∀ x ∈ sortByPriorityDesc
      (s.queue ++ [{ id := s.nextTaskId, priority := jsOr1 p }]),
      x ∈ s.queue ∨ x = { id := s.nextTaskId, priority := jsOr1 p } := by
    intro x hx
    have := hperm.mem_iff.mp hx
    rcases List.mem_append.mp this with h1 | h1
    · exact Or.inl h1
    · exact Or.inr (List.mem_singleton.mp h1)
  have hinv1 : Inv { s with nextTaskId := s.nextTaskId + 1
                            queue := sortByPriorityDesc
                              (s.queue ++ [{ id := s.nextTaskId, priority := jsOr1 p }]) } := by
    refine ⟨?_, ?_, h.disp_nodup, ?_, ?_, h.perm, h.run_le, ?_, h.cb_lt,
      h.fired_lt, h.fired_nodup, h.cb_nodup, h.cb_fired⟩
    · intro x hx
      rcases hmem x hx with h1 | h1
      · exact Nat.lt_trans (h.queue_lt x h1) (Nat.lt_succ_self _)
      · rw [h1]; exact Nat.lt_succ_self _
    · intro x hx
      exact Nat.lt_trans (h.disp_lt x hx) (Nat.lt_succ_self _)
    · intro x hx
      rcases hmem x hx with h1 | h1
      · exact h.queue_disp x h1
      · rw [h1]
        intro hcon
        rcases List.mem_map.mp hcon with ⟨y, hy, hyid⟩
        exact absurd (hyid ▸ h.disp_lt y hy) (Nat.lt_irrefl _)
    · have h2 : (ids (s.queue ++ [{ id := s.nextTaskId, priority := jsOr1 p }])).Nodup := by
        have : ids (s.queue ++ [{ id := s.nextTaskId, priority := jsOr1 p }]) =
            ids s.queue ++ [s.nextTaskId] := by simp [ids]
        rw [this]
        refine h.queue_nodup.append (List.nodup_singleton _) ?_
        intro a ha hb
        rcases List.mem_singleton.mp hb with rfl
        rcases List.mem_map.mp ha with ⟨y, hy, hyid⟩
        exact absurd (hyid ▸ h.queue_lt y hy) (Nat.lt_irrefl _)
      exact ((hperm.map Entry.id).nodup_iff).mpr h2
    · have hs : sortByPriorityDesc (s.queue ++ [{ id := s.nextTaskId, priority := jsOr1 p }]) =
          insertLast { id := s.nextTaskId, priority := jsOr1 p } s.queue :=
        sortByPriorityDesc_append_sorted _ _ (pairwise_entryLE_prio h.sorted)
      rw [hs]
      exact insertLast_pairwise _ _ h.sorted (fun x hx => h.queue_lt x hx)
  dsimp only
  split
  · exact inv_process hinv1
  · exact hinv1

theorem inv_onEmpty {s : QState} (h : Inv s) : Inv (onEmpty s) := by
  unfold onEmpty
  have hinv1 : Inv { s with emptyCallbacks := s.emptyCallbacks ++ [s.nextCbId]
                            nextCbId := s.nextCbId + 1 } := by
    refine ⟨h.queue_lt, h.disp_lt, h.disp_nodup, h.queue_disp, h.queue_nodup,
      h.perm, h.run_le, h.sorted, ?_, ?_, h.fired_nodup, ?_, ?_⟩
    · intro i hi
      rcases List.mem_append.mp hi with h1 | h1
      · exact Nat.lt_trans (h.cb_lt i h1) (Nat.lt_succ_self _)
      · rcases List.mem_singleton.mp h1 with rfl
        exact Nat.lt_succ_self _
    · intro i hi
      exact Nat.lt_trans (h.fired_lt i hi) (Nat.lt_succ_self _)
    · refine h.cb_nodup.append (List.nodup_singleton _) ?_
      intro a ha hb
      rcases List.mem_singleton.mp hb with rfl
      exact absurd (h.cb_lt _ ha) (Nat.lt_irrefl _)
    · intro i hi
      rcases List.mem_append.mp hi with h1 | h1
      · exact h.cb_fired i h1
      · rcases List.mem_singleton.mp h1 with rfl
        intro hcon
        exact absurd (h.fired_lt _ hcon) (Nat.lt_irrefl _)
  dsimp only
  split
  · exact inv_checkEmpty hinv1
  · exact hinv1

theorem inv_settle {s : QState} (h : Inv s) (i : Nat) (ok : Bool) :
    Inv (settle s i ok) := by
  unfold settle
  split
  case isTrue hi =>
    have hrun : s.runningIds.Perm (i :: s.runningIds.erase i) :=
      List.perm_cons_erase hi
    have hlen : (s.runningIds.erase i).length ≤ s.concurrency :=
      le_trans (List.Sublist.length_le (s.runningIds.erase_sublist i)) h.run_le
    have hmid : ∀ r j : List Nat,
        ((s.runningIds ++ r) ++ j).Perm (i :: ((s.runningIds.erase i ++ r) ++ j)) := by
      intro r j
      have e1 : ((i :: s.runningIds.erase i) ++ r) ++ j =
          i :: ((s.runningIds.erase i ++ r) ++ j) := by simp
      calc ((s.runningIds ++ r) ++ j).Perm (((i :: s.runningIds.erase i) ++ r) ++ j) :=
            (hrun.append_right r).append_right j
        _ = i :: ((s.runningIds.erase i ++ r) ++ j) := e1
    cases ok with
    | true =>
      apply inv_checkEmpty
      apply inv_process
      refine ⟨h.queue_lt, h.disp_lt, h.disp_nodup, h.queue_disp, h.queue_nodup,
        ?_, hlen, h.sorted, h.cb_lt, h.fired_lt, h.fired_nodup, h.cb_nodup, h.cb_fired⟩
      show (ids s.dispatchOrder).Perm
        ((s.runningIds.erase i ++ (s.resolves ++ [i])) ++ s.rejects)
      have key : ((s.runningIds.erase i ++ (s.resolves ++ [i])) ++ s.rejects).Perm
          (i :: ((s.runningIds.erase i ++ s.resolves) ++ s.rejects)) := by
        have e1 : (s.runningIds.erase i ++ (s.resolves ++ [i])) ++ s.rejects =
            (s.runningIds.erase i ++ s.resolves) ++ (i :: s.rejects) := by
          simp [List.append_assoc]
        rw [e1]
        exact List.perm_middle
      exact (h.perm.trans (hmid s.resolves s.rejects)).trans key.symm
    | false =>
      apply inv_checkEmpty
      apply inv_process
      refine ⟨h.queue_lt, h.disp_lt, h.disp_nodup, h.queue_disp, h.queue_nodup,
        ?_, hlen, h.sorted, h.cb_lt, h.fired_lt, h.fired_nodup, h.cb_nodup, h.cb_fired⟩
      show (ids s.dispatchOrder).Perm
        ((s.runningIds.erase i ++ s.resolves) ++ (s.rejects ++ [i]))
      have key : ((s.runningIds.erase i ++ s.resolves) ++ (s.rejects ++ [i])).Perm
          (i :: ((s.runningIds.erase i ++ s.resolves) ++ s.rejects)) := by
        have e1 : (s.runningIds.erase i ++ s.resolves) ++ (s.rejects ++ [i]) =
            (s.runningIds.erase i ++ s.resolves) ++ (s.rejects ++ [i]) := rfl
        have e2 : (s.runningIds.erase i ++ s.resolves) ++ (s.rejects ++ [i]) =
            ((s.runningIds.erase i ++ s.resolves) ++ s.rejects) ++ [i] := by
          simp [List.append_assoc]
        rw [e2]
        exact List.perm_append_comm
      exact (h.perm.trans (hmid s.resolves s.rejects)).trans key.symm
  case isFalse => exact h

end AsyncQueue

namespace AsyncQueue

theorem inv_clear {s : QState} (h : Inv s) : Inv (clear s) := by
  refine ⟨?_, h.disp_lt, h.disp_nodup, ?_, ?_, h.perm, h.run_le, ?_, h.cb_lt,
    h.fired_lt, h.fired_nodup, h.cb_nodup, h.cb_fired⟩
  · intro e he; cases he
  · intro e he; cases he
  · exact List.nodup_nil
  · exact List.Pairwise.nil

theorem inv_pause {s : QState} (h : Inv s) : Inv (pause s) :=
  ⟨h.queue_lt, h.disp_lt, h.disp_nodup, h.queue_disp, h.queue_nodup, h.perm,
    h.run_le, h.sorted, h.cb_lt, h.fired_lt, h.fired_nodup, h.cb_nodup, h.cb_fired⟩

theorem inv_start {s : QState} (h : Inv s) : Inv (start s) := by
  apply inv_process
  exact ⟨h.queue_lt, h.disp_lt, h.disp_nodup, h.queue_disp, h.queue_nodup, h.perm,
    h.run_le, h.sorted, h.cb_lt, h.fired_lt, h.fired_nodup, h.cb_nodup, h.cb_fired⟩

theorem inv_step {s : QState} (h : Inv s) (ev : Ev) : Inv (step s ev) := by
  cases ev with
  | add p => exact inv_add h p
  | start => exact inv_start h
  | pause => exact inv_pause h
  | clear => exact inv_clear h
  | onEmpty => exact inv_onEmpty h
  | settle i ok => exact inv_settle h i ok

theorem inv_mkQueue (c : Option Nat) (a : Option Bool) : Inv (mkQueue c a) := by
  constructor <;> simp [mkQueue, ids]

theorem inv_run (evs : List Ev) : ∀ s : QState, Inv s → Inv (run s evs) := by
  induction evs with
  | nil => intro s h; exact h
  | cons ev evs ih =>
    intro s h
    have : run s (ev :: evs) = run (step s ev) evs := by simp [run]
    rw [this]
    exact ih _ (inv_step h ev)

theorem checkEmpty_concurrency (s : QState) :
    (_checkEmpty s).concurrency = s.concurrency := by
  unfold _checkEmpty; split <;> rfl

theorem process_concurrency (s : QState) :
    (_process s).concurrency = s.concurrency := by
  unfold _process
  split
  · rfl
  · exact (processGo_spec s.queue.length s).choose_spec.2.2.2.2.1

theorem step_concurrency (s : QState) (ev : Ev) :
    (step s ev).concurrency = s.concurrency := by
  cases ev with
  | add p =>
    show (add s p).concurrency = s.concurrency
    unfold add
    dsimp only
    split
    · rw [process_concurrency]
    · rfl
  | start => exact process_concurrency _
  | pause => rfl
  | clear => rfl
  | onEmpty =>
    show (onEmpty s).concurrency = s.concurrency
    unfold onEmpty
    dsimp only
    split
    · rw [checkEmpty_concurrency]
    · rfl
  | settle i ok =>
    show (settle s i ok).concurrency = s.concurrency
    unfold settle
    split
    · cases ok <;> simp [checkEmpty_concurrency, process_concurrency]
    · rfl

theorem run_concurrency (evs : List Ev) : ∀ s : QState,
    (run s evs).concurrency = s.concurrency := by
  induction evs with
  | nil => intro s; rfl
  | cons ev evs ih =>
    intro s
    have : run s (ev :: evs) = run (step s ev) evs := by simp [run]
    rw [this, ih, step_concurrency]

end AsyncQueue

namespace AsyncQueue

/-- C1: for every queue constructed with options `c`, `a` (the configured
concurrency limit is `jsOrNat1 c`, a positive integer) and every sequence of
`add` / `start` / `pause` / `clear` / `onEmpty` events and task settlements,
the `pending` reading (the number of dispatched-but-not-yet-settled tasks)
never exceeds the configured limit. -/
theorem pending_never_exceeds_concurrency (c : Option Nat) (a : Option Bool)
    (evs : List Ev) : (run (mkQueue c a) evs).pending ≤ jsOrNat1 c := by
  have h := (inv_run evs _ (inv_mkQueue c a)).run_le
  rw [run_concurrency] at h
  exact h

/-- C2: along every event sequence, no entry is ever dispatched twice
(the dispatch log has no duplicate ids); every completion handle is settled
at most once; only dispatched entries are ever settled (so an entry removed
by `clear()` before dispatch is never settled); and every dispatched entry
is either still running (its settlement is the pending `settle` event) or
settled exactly once. -/
theorem handle_settles_exactly_once (c : Option Nat) (a : Option Bool)
    (evs : List Ev) :
    (ids (run (mkQueue c a) evs).dispatchOrder).Nodup ∧
    (∀ i, settledCount (run (mkQueue c a) evs) i ≤ 1) ∧
    (∀ i, 1 ≤ settledCount (run (mkQueue c a) evs) i →
      i ∈ ids (run (mkQueue c a) evs).dispatchOrder) ∧
    (∀ i ∈ ids (run (mkQueue c a) evs).dispatchOrder,
      i ∈ (run (mkQueue c a) evs).runningIds ∨
        settledCount (run (mkQueue c a) evs) i = 1) := by
  have hinv := inv_run evs _ (inv_mkQueue c a)
  have hnd := hinv.disp_nodup
  have hperm := hinv.perm
  have hcount : ∀ i, (ids (run (mkQueue c a) evs).dispatchOrder).count i =
      ((run (mkQueue c a) evs).runningIds.count i +
        settledCount (run (mkQueue c a) evs) i) := by
    intro i
    rw [hperm.count_eq i]
    show ((run (mkQueue c a) evs).runningIds ++ (run (mkQueue c a) evs).resolves ++
      (run (mkQueue c a) evs).rejects).count i = _
    rw [List.append_assoc, List.count_append]
    rfl
  refine ⟨hnd, ?_, ?_, ?_⟩
  · intro i
    have h1 : (ids (run (mkQueue c a) evs).dispatchOrder).count i ≤ 1 :=
      List.nodup_iff_count_le_one.mp hnd i
    rw [hcount i] at h1
    exact le_trans (Nat.le_add_left _ _) h1
  · intro i hi
    have h1 : 0 < (ids (run (mkQueue c a) evs).dispatchOrder).count i := by
      rw [hcount i]
      exact lt_of_lt_of_le hi (Nat.le_add_left _ _)
    exact List.count_pos_iff.mp h1
  · intro i hi
    have h1 : (ids (run (mkQueue c a) evs).dispatchOrder).count i = 1 :=
      List.count_eq_one_of_mem hnd hi
    rw [hcount i] at h1
    rcases Nat.eq_zero_or_pos ((run (mkQueue c a) evs).runningIds.count i) with h2 | h2
    · right; omega
    · left; exact List.count_pos_iff.mp h2

end AsyncQueue

namespace AsyncQueue

/-- C3 counterexample: with the default options (`autoStart` enabled, not
paused) and `concurrency = 1`, admitting tasks with priorities 1, 5, 3 in
that order dispatches the priority-1 task first — `add` runs `_process`
synchronously while the queue is still otherwise empty — so the dispatch
order is 1, 5, 3 and not 5, 3, 1 as claimed. -/
theorem dispatch_order_1_5_3_counterexample :
    ((run (mkQueue (some 1) none)
      [Ev.add (some 1), Ev.add (some 5), Ev.add (some 3),
       Ev.settle 0 true, Ev.settle 1 true, Ev.settle 2 true]).dispatchOrder.map
        Entry.priority = [1, 5, 3]) ∧
    ((run (mkQueue (some 1) none)
      [Ev.add (some 1), Ev.add (some 5), Ev.add (some 3),
       Ev.settle 0 true, Ev.settle 1 true, Ev.settle 2 true]).dispatchOrder.map
        Entry.priority ≠ [5, 3, 1]) := by
  constructor
  · decide
  · decide

/-- C3 amended: when dispatch is withheld during admission (`autoStart:
false`), admitting priorities 1, 5, 3 with `concurrency = 1` and then
calling `start()` dispatches highest priority first: 5, 3, 1.  With the
default `autoStart`, the first admission is dispatched immediately and the
order is 1, 5, 3 — the tasks admitted while the slot is busy still follow
highest-priority-first. -/
theorem dispatch_order_priority_first_amended :
    ((run (mkQueue (some 1) (some false))
      [Ev.add (some 1), Ev.add (some 5), Ev.add (some 3), Ev.start,
       Ev.settle 1 true, Ev.settle 2 true, Ev.settle 0 true]).dispatchOrder.map
        Entry.priority = [5, 3, 1]) ∧
    ((run (mkQueue (some 1) none)
      [Ev.add (some 1), Ev.add (some 5), Ev.add (some 3),
       Ev.settle 0 true, Ev.settle 1 true, Ev.settle 2 true]).dispatchOrder.map
        Entry.priority = [1, 5, 3]) := by
  constructor
  · decide
  · decide

end AsyncQueue

namespace AsyncQueue

theorem processGo_withLogs (fuel : Nat) : ∀ (s : QState) (r j : List Nat),
    processGo fuel (withLogs s r j) = withLogs (processGo fuel s) r j := by
  induction fuel with
  | zero => intro s r j; rfl
  | succ fuel ih =>
    intro s r j
    cases s with
    | mk conc auto queue running psd cbs nti nci disp res rej fr =>
      by_cases hc : running.length < conc
      · cases queue with
        | nil => simp [processGo, withLogs, hc]
        | cons e rest =>
          simp only [processGo, withLogs, hc, if_pos]
          exact ih (QState.mk conc auto rest (running ++ [e.id]) psd cbs nti nci
            (disp ++ [e]) res rej fr) r j
      · simp [processGo, withLogs, hc]

theorem checkEmpty_withLogs (s : QState) (r j : List Nat) :
    _checkEmpty (withLogs s r j) = withLogs (_checkEmpty s) r j := by
  unfold _checkEmpty withLogs
  split <;> rfl

theorem process_withLogs (s : QState) (r j : List Nat) :
    _process (withLogs s r j) = withLogs (_process s) r j := by
  unfold _process
  split
  case isTrue h =>
    have h2 : s.paused = true := h
    rw [if_pos h2]
  case isFalse h =>
    have h2 : ¬s.paused = true := h
    rw [if_neg h2]
    exact processGo_withLogs s.queue.length s r j

end AsyncQueue

namespace AsyncQueue

theorem process_fields (s : QState) :
    (_process s).resolves = s.resolves ∧ (_process s).rejects = s.rejects ∧
    (_process s).fired = s.fired ∧ (_process s).emptyCallbacks = s.emptyCallbacks ∧
    (_process s).paused = s.paused ∧ (_process s).nextTaskId = s.nextTaskId ∧
    (_process s).nextCbId = s.nextCbId ∧ (_process s).autoStart = s.autoStart := by
  unfold _process
  split
  · exact ⟨rfl, rfl, rfl, rfl, rfl, rfl, rfl, rfl⟩
  · obtain ⟨k, -, -, -, -, -, hauto, hpaused, hcbs, hnti, hnci, hres, hrej, hfired⟩ :=
      processGo_spec s.queue.length s
    exact ⟨hres, hrej, hfired, hcbs, hpaused, hnti, hnci, hauto⟩

theorem checkEmpty_fields (s : QState) :
    (_checkEmpty s).queue = s.queue ∧ (_checkEmpty s).runningIds = s.runningIds ∧
    (_checkEmpty s).dispatchOrder = s.dispatchOrder ∧
    (_checkEmpty s).paused = s.paused ∧ (_checkEmpty s).resolves = s.resolves ∧
    (_checkEmpty s).rejects = s.rejects ∧ (_checkEmpty s).nextTaskId = s.nextTaskId ∧
    (_checkEmpty s).nextCbId = s.nextCbId ∧ (_checkEmpty s).autoStart = s.autoStart := by
  unfold _checkEmpty
  split <;> exact ⟨rfl, rfl, rfl, rfl, rfl, rfl, rfl, rfl, rfl⟩

theorem settle_true_eq (s : QState) (i : Nat) (hi : i ∈ s.runningIds) :
    settle s i true = _checkEmpty (_process
      { s with resolves := s.resolves ++ [i],
               runningIds := s.runningIds.erase i }) := by
  unfold settle
  rw [if_pos hi]
  rfl

theorem settle_false_eq (s : QState) (i : Nat) (hi : i ∈ s.runningIds) :
    settle s i false = _checkEmpty (_process
      { s with rejects := s.rejects ++ [i],
               runningIds := s.runningIds.erase i }) := by
  unfold settle
  rw [if_pos hi]
  rfl

theorem settle_true_logs (s : QState) (i : Nat) (hi : i ∈ s.runningIds) :
    (settle s i true).resolves = s.resolves ++ [i] ∧
    (settle s i true).rejects = s.rejects := by
  rw [settle_true_eq s i hi]
  constructor
  · rw [(checkEmpty_fields _).2.2.2.2.1, (process_fields _).1]
  · rw [(checkEmpty_fields _).2.2.2.2.2.1, (process_fields _).2.1]

theorem settle_false_eq_withLogs (s : QState) (i : Nat) (hi : i ∈ s.runningIds) :
    settle s i false =
      withLogs (settle s i true) s.resolves (s.rejects ++ [i]) := by
  rw [settle_false_eq s i hi, settle_true_eq s i hi, ← checkEmpty_withLogs,
    ← process_withLogs]
  rfl

end AsyncQueue

namespace AsyncQueue

theorem settle_not_running (s : QState) (i : Nat) (ok : Bool)
    (hi : i ∉ s.runningIds) : settle s i ok = s := by
  unfold settle
  rw [if_neg hi]

/-- C4: a task failure is contained.  Settling a running task's promise by
rejection produces exactly the same queue, running set, dispatch log, pause
flag, callback state and fired log as settling it by resolution — the
dispatch loop continues unaffected — and no other task's completion handle
is touched (their resolve and reject counts agree between the two
outcomes).  Concretely, with `concurrency = 1` a first task that rejects
does not prevent the next queued task from being dispatched and
succeeding. -/
theorem task_failure_contained (s : QState) (i : Nat) :
    ((settle s i false).queue = (settle s i true).queue ∧
     (settle s i false).runningIds = (settle s i true).runningIds ∧
     (settle s i false).dispatchOrder = (settle s i true).dispatchOrder ∧
     (settle s i false).paused = (settle s i true).paused ∧
     (settle s i false).emptyCallbacks = (settle s i true).emptyCallbacks ∧
     (settle s i false).fired = (settle s i true).fired ∧
     (∀ j, j ≠ i →
       (settle s i false).resolves.count j = (settle s i true).resolves.count j ∧
       (settle s i false).rejects.count j = (settle s i true).rejects.count j)) ∧
    ((run (mkQueue (some 1) none)
       [Ev.add none, Ev.add none, Ev.settle 0 false, Ev.settle 1 true]).rejects = [0] ∧
     (run (mkQueue (some 1) none)
       [Ev.add none, Ev.add none, Ev.settle 0 false, Ev.settle 1 true]).resolves = [1] ∧
     ids (run (mkQueue (some 1) none)
       [Ev.add none, Ev.add none, Ev.settle 0 false, Ev.settle 1 true]).dispatchOrder
       = [0, 1]) := by
  have hcnt : ∀ (l : List Nat) (jj : Nat), jj ≠ i → (l ++ [i]).count jj = l.count jj := by
    intro l jj hj
    rw [List.count_append]
    have h0 : ([i] : List Nat).count jj = 0 := List.count_eq_zero.mpr (by simp [hj])
    rw [h0, Nat.add_zero]
  constructor
  · by_cases hi : i ∈ s.runningIds
    · have hw := settle_false_eq_withLogs s i hi
      have hlog := settle_true_logs s i hi
      rw [hw]
      refine ⟨rfl, rfl, rfl, rfl, rfl, rfl, ?_⟩
      intro j hj
      constructor
      · show s.resolves.count j = (settle s i true).resolves.count j
        rw [hlog.1, hcnt s.resolves j hj]
      · show (s.rejects ++ [i]).count j = (settle s i true).rejects.count j
        rw [hlog.2, hcnt s.rejects j hj]
    · rw [settle_not_running s i false hi, settle_not_running s i true hi]
      exact ⟨rfl, rfl, rfl, rfl, rfl, rfl, fun j hj => ⟨rfl, rfl⟩⟩
  · refine ⟨by decide, by decide, by decide⟩

end AsyncQueue

namespace AsyncQueue

theorem process_of_paused (s : QState) (hp : s.paused = true) : _process s = s := by
  unfold _process
  rw [if_pos hp]

theorem processGo_dispatches (fuel : Nat) (s : QState)
    (hc : s.runningIds.length < s.concurrency) (hq : s.queue ≠ [])
    (hf : 1 ≤ fuel) :
    s.dispatchOrder.length < (processGo fuel s).dispatchOrder.length := by
  cases fuel with
  | zero => omega
  | succ fuel =>
    cases hqe : s.queue with
    | nil => exact absurd hqe hq
    | cons e rest =>
      simp only [processGo, hc, hqe, if_pos]
      obtain ⟨k, -, -, -, hdisp, -⟩ := processGo_spec fuel
        { s with queue := rest, runningIds := s.runningIds ++ [e.id],
                 dispatchOrder := s.dispatchOrder ++ [e] }
      rw [hdisp]
      simp only [List.length_append, List.length_cons]
      omega

/-- C5: while the queue is paused no event other than `start` ever extends
the dispatch log — neither `add` (the auto-start check sees `paused`) nor
the `_process` re-entry of a settlement; a running task's settlement still
decrements the running count and settles its handle; `start()` clears the
paused flag; and `start()` on a non-paused backlog with a free slot
dispatches backlog work again. -/
theorem pause_blocks_dispatch_start_resumes (s : QState) (ev : Ev) (i : Nat)
    (ok : Bool) :
    (s.paused = true → ev ≠ Ev.start → (step s ev).dispatchOrder = s.dispatchOrder) ∧
    (s.paused = true → i ∈ s.runningIds →
      (settle s i ok).runningIds.length + 1 = s.runningIds.length ∧
      settledCount (settle s i ok) i = settledCount s i + 1) ∧
    ((start s).paused = false) ∧
    (s.queue ≠ [] → s.runningIds.length < s.concurrency →
      s.dispatchOrder.length < (start s).dispatchOrder.length) := by
  refine ⟨?_, ?_, ?_, ?_⟩
  · intro hp hev
    cases ev with
    | add p =>
      show (add s p).dispatchOrder = s.dispatchOrder
      unfold add
      dsimp only
      rw [if_neg (by simp [hp])]
    | start => exact absurd rfl hev
    | pause => rfl
    | clear => rfl
    | onEmpty =>
      show (onEmpty s).dispatchOrder = s.dispatchOrder
      unfold onEmpty
      dsimp only
      split
      · rw [(checkEmpty_fields _).2.2.1]
      · rfl
    | settle j jok =>
      show (settle s j jok).dispatchOrder = s.dispatchOrder
      by_cases hj : j ∈ s.runningIds
      · cases jok with
        | true =>
          rw [settle_true_eq s j hj, (checkEmpty_fields _).2.2.1,
            process_of_paused _ (by exact hp)]
        | false =>
          rw [settle_false_eq s j hj, (checkEmpty_fields _).2.2.1,
            process_of_paused _ (by exact hp)]
      · rw [settle_not_running s j jok hj]
  · intro hp hi
    have hlen := List.length_erase_of_mem hi
    have hpos := List.length_pos_of_mem hi
    cases ok with
    | true =>
      rw [settle_true_eq s i hi]
      constructor
      · rw [(checkEmpty_fields _).2.1, process_of_paused _ (by exact hp)]
        show (s.runningIds.erase i).length + 1 = s.runningIds.length
        omega
      · unfold settledCount
        rw [(checkEmpty_fields _).2.2.2.2.1, (checkEmpty_fields _).2.2.2.2.2.1,
          (process_fields _).1, (process_fields _).2.1]
        have h1 : ([i] : List Nat).count i = 1 := by simp
        simp_arith [List.count_append, h1]
    | false =>
      rw [settle_false_eq s i hi]
      constructor
      · rw [(checkEmpty_fields _).2.1, process_of_paused _ (by exact hp)]
        show (s.runningIds.erase i).length + 1 = s.runningIds.length
        omega
      · unfold settledCount
        rw [(checkEmpty_fields _).2.2.2.2.1, (checkEmpty_fields _).2.2.2.2.2.1,
          (process_fields _).1, (process_fields _).2.1]
        have h1 : ([i] : List Nat).count i = 1 := by simp
        simp_arith [List.count_append, h1]
  · exact (process_fields _).2.2.2.2.1
  · intro hq hc
    have hu : start s = processGo ({ s with paused := false } : QState).queue.length
        { s with paused := false } := by
      unfold start _process
      rw [if_neg (by simp)]
    rw [hu]
    exact processGo_dispatches ({ s with paused := false } : QState).queue.length
      { s with paused := false } (by exact hc) (by exact hq)
      (by exact List.length_pos.mpr hq)
end AsyncQueue

namespace AsyncQueue

/-- Witness for C5 at a concrete paused state with task 0 running, one
backlog entry, and a free slot. -/
theorem pause_blocks_dispatch_start_resumes_witness :
    (step (QState.mk 2 true [Entry.mk 1 2] [0] true [] 2 0 [Entry.mk 0 1] [] [] [])
        (Ev.add none)).dispatchOrder = [Entry.mk 0 1] ∧
    (settle (QState.mk 2 true [Entry.mk 1 2] [0] true [] 2 0 [Entry.mk 0 1] [] [] [])
        0 true).runningIds.length + 1 = 1 ∧
    (start (QState.mk 2 true [Entry.mk 1 2] [0] true [] 2 0 [Entry.mk 0 1] [] [] [])).paused
        = false ∧
    1 < (start (QState.mk 2 true [Entry.mk 1 2] [0] true [] 2 0 [Entry.mk 0 1] [] [] [])).dispatchOrder.length := by
  have h := pause_blocks_dispatch_start_resumes
    (QState.mk 2 true [Entry.mk 1 2] [0] true [] 2 0 [Entry.mk 0 1] [] [] [])
    (Ev.add none) 0 true
  exact ⟨h.1 rfl (by decide), (h.2.1 rfl (by decide)).1, h.2.2.1,
    h.2.2.2 (by decide) (by decide)⟩

end AsyncQueue

namespace AsyncQueue

theorem add_fired (s : QState) (p : Option Int) : (add s p).fired = s.fired := by
  unfold add
  dsimp only
  split
  · exact (process_fields _).2.2.1
  · rfl

theorem start_fired (s : QState) : (start s).fired = s.fired :=
  (process_fields _).2.2.1

theorem checkEmpty_grows (u : QState)
    (hlt : u.fired.length < (_checkEmpty u).fired.length) :
    (_checkEmpty u).queue = [] ∧ (_checkEmpty u).runningIds = [] := by
  unfold _checkEmpty at hlt ⊢
  split at hlt
  case isTrue h =>
    rw [if_pos h]
    exact ⟨List.length_eq_zero.mp h.1, List.length_eq_zero.mp h.2⟩
  case isFalse h => exact absurd hlt (lt_irrefl _)

theorem settle_grows (s : QState) (i : Nat) (ok : Bool)
    (hlt : s.fired.length < (settle s i ok).fired.length) :
    (settle s i ok).queue = [] ∧ (settle s i ok).runningIds = [] := by
  by_cases hi : i ∈ s.runningIds
  · cases ok with
    | true =>
      rw [settle_true_eq s i hi] at hlt ⊢
      have hf : (_process { s with resolves := s.resolves ++ [i], runningIds := s.runningIds.erase i } : QState).fired = s.fired :=
        (process_fields _).2.2.1
      exact checkEmpty_grows _ (by rw [hf]; exact hlt)
    | false =>
      rw [settle_false_eq s i hi] at hlt ⊢
      have hf : (_process { s with rejects := s.rejects ++ [i], runningIds := s.runningIds.erase i } : QState).fired = s.fired :=
        (process_fields _).2.2.1
      exact checkEmpty_grows _ (by rw [hf]; exact hlt)
  · rw [settle_not_running s i ok hi] at hlt
    exact absurd hlt (lt_irrefl _)

end AsyncQueue

namespace AsyncQueue

/-- C6: empty callbacks fire exactly once per registration and only at a
drain moment.  (1) Along every event sequence, the fired log never repeats a
registration.  (2) Whenever a step fires callbacks, the resulting state has
an empty backlog and no running task — callbacks run only at a drain
moment.  (3) If backlog and running count are already empty at
registration, `onEmpty` fires the new callback (after any parked ones)
synchronously before returning.  (4) If a settlement leaves the queue
drained — the last outstanding task settles with nothing admitted in
between — then all registered callbacks fire at that settlement and the
waiter set empties. -/
theorem onEmpty_fires_once_at_drain (c : Option Nat) (a : Option Bool)
    (evs : List Ev) (s : QState) (ev : Ev) (i : Nat) (ok : Bool) :
    (run (mkQueue c a) evs).fired.Nodup ∧
    (s.fired.length < (step s ev).fired.length →
      (step s ev).queue = [] ∧ (step s ev).runningIds = []) ∧
    (s.queue = [] → s.runningIds = [] →
      (onEmpty s).fired = s.fired ++ s.emptyCallbacks ++ [s.nextCbId] ∧
      (onEmpty s).emptyCallbacks = []) ∧
    (i ∈ s.runningIds → (settle s i ok).queue = [] → (settle s i ok).runningIds = [] →
      (settle s i ok).fired = s.fired ++ s.emptyCallbacks ∧
      (settle s i ok).emptyCallbacks = []) := by
  refine ⟨(inv_run evs _ (inv_mkQueue c a)).fired_nodup, ?_, ?_, ?_⟩
  · intro hlt
    cases ev with
    | add p =>
      simp only [step] at hlt
      rw [add_fired] at hlt
      exact absurd hlt (lt_irrefl _)
    | start =>
      simp only [step] at hlt
      rw [start_fired] at hlt
      exact absurd hlt (lt_irrefl _)
    | pause => exact absurd hlt (lt_irrefl _)
    | clear => exact absurd hlt (lt_irrefl _)
    | onEmpty =>
      show (onEmpty s).queue = [] ∧ (onEmpty s).runningIds = []
      simp only [step] at hlt
      unfold onEmpty at hlt ⊢
      dsimp only at hlt ⊢
      split at hlt
      case isTrue h =>
        rw [if_pos h]
        constructor
        · rw [(checkEmpty_fields _).1]
          exact List.length_eq_zero.mp h.1
        · rw [(checkEmpty_fields _).2.1]
          exact List.length_eq_zero.mp h.2
      case isFalse h => exact absurd hlt (lt_irrefl _)
    | settle j jok =>
      exact settle_grows s j jok hlt
  · intro hq hr
    unfold onEmpty
    dsimp only
    split
    case isTrue h =>
      unfold _checkEmpty
      split
      case isTrue h2 =>
        constructor
        · show s.fired ++ (s.emptyCallbacks ++ [s.nextCbId]) =
            s.fired ++ s.emptyCallbacks ++ [s.nextCbId]
          rw [List.append_assoc]
        · rfl
      case isFalse h2 => exact absurd h h2
    case isFalse h =>
      refine absurd ⟨?_, ?_⟩ h
      · show s.queue.length = 0
        rw [hq]
        rfl
      · show s.runningIds.length = 0
        rw [hr]
        rfl
  · intro hi hq hr
    cases ok with
    | true =>
      rw [settle_true_eq s i hi] at hq hr ⊢
      rw [(checkEmpty_fields _).1] at hq
      rw [(checkEmpty_fields _).2.1] at hr
      unfold _checkEmpty
      split
      case isTrue h2 =>
        constructor
        · dsimp only
          rw [(process_fields _).2.2.1, (process_fields _).2.2.2.1]
        · rfl
      case isFalse h2 =>
        refine absurd ⟨?_, ?_⟩ h2
        · rw [hq]
          rfl
        · rw [hr]
          rfl
    | false =>
      rw [settle_false_eq s i hi] at hq hr ⊢
      rw [(checkEmpty_fields _).1] at hq
      rw [(checkEmpty_fields _).2.1] at hr
      unfold _checkEmpty
      split
      case isTrue h2 =>
        constructor
        · dsimp only
          rw [(process_fields _).2.2.1, (process_fields _).2.2.2.1]
        · rfl
      case isFalse h2 =>
        refine absurd ⟨?_, ?_⟩ h2
        · rw [hq]
          rfl
        · rw [hr]
          rfl

end AsyncQueue

namespace AsyncQueue

/-- Witness for C6: a registration on a fresh (drained) queue fires
synchronously; a step that fires callbacks ends at a drained state; the
settlement of the last running task fires the parked callback. -/
theorem onEmpty_fires_once_at_drain_witness :
    ((step (mkQueue none none) Ev.onEmpty).queue = [] ∧
      (step (mkQueue none none) Ev.onEmpty).runningIds = []) ∧
    ((onEmpty (mkQueue none none)).fired = [0] ∧
      (onEmpty (mkQueue none none)).emptyCallbacks = []) ∧
    (settle (QState.mk 1 true [] [5] false [7] 9 8 [Entry.mk 5 1] [] [] [])
      5 true).fired = [7] := by
  refine ⟨?_, ?_, ?_⟩
  · exact (onEmpty_fires_once_at_drain none none [] (mkQueue none none)
      Ev.onEmpty 0 true).2.1 (by decide)
  · have h3 := (onEmpty_fires_once_at_drain none none [] (mkQueue none none)
      Ev.onEmpty 0 true).2.2.1 rfl rfl
    exact ⟨by rw [h3.1]; rfl, h3.2⟩
  · have h4 := (onEmpty_fires_once_at_drain none none []
      (QState.mk 1 true [] [5] false [7] 9 8 [Entry.mk 5 1] [] [] [])
      Ev.onEmpty 5 true).2.2.2 (by decide) (by decide) (by decide)
    rw [h4.1]
    rfl

end AsyncQueue

namespace AsyncQueue

theorem gone_processGo (fuel : Nat) (s : QState) (i : Nat)
    (h2 : i ∉ ids s.queue) (h3 : i ∉ ids s.dispatchOrder) (h4 : i ∉ s.runningIds) :
    i ∉ ids (processGo fuel s).queue ∧ i ∉ ids (processGo fuel s).dispatchOrder ∧
    i ∉ (processGo fuel s).runningIds := by
  obtain ⟨k, -, hq, hr, hd, -, -, -, -, -, -, -, -, -⟩ := processGo_spec fuel s
  have htake : i ∉ ids (s.queue.take k) := by
    intro hmem
    rcases List.mem_map.mp hmem with ⟨x, hx, hxi⟩
    exact h2 (hxi ▸ List.mem_map_of_mem Entry.id (List.take_subset k s.queue hx))
  refine ⟨?_, ?_, ?_⟩
  · rw [hq]
    intro hmem
    rcases List.mem_map.mp hmem with ⟨x, hx, hxi⟩
    exact h2 (hxi ▸ List.mem_map_of_mem Entry.id (List.drop_subset k s.queue hx))
  · rw [hd]
    intro hmem
    have hsplit : ids (s.dispatchOrder ++ s.queue.take k) =
        ids s.dispatchOrder ++ ids (s.queue.take k) := by simp [ids]
    rw [hsplit] at hmem
    rcases List.mem_append.mp hmem with h | h
    · exact h3 h
    · exact htake h
  · rw [hr]
    intro hmem
    rcases List.mem_append.mp hmem with h | h
    · exact h4 h
    · exact htake h

theorem gone_process (s : QState) (i : Nat)
    (h2 : i ∉ ids s.queue) (h3 : i ∉ ids s.dispatchOrder) (h4 : i ∉ s.runningIds) :
    i ∉ ids (_process s).queue ∧ i ∉ ids (_process s).dispatchOrder ∧
    i ∉ (_process s).runningIds := by
  unfold _process
  split
  · exact ⟨h2, h3, h4⟩
  · exact gone_processGo _ s i h2 h3 h4

theorem gone_step (s : QState) (ev : Ev) (i : Nat)
    (h1 : i < s.nextTaskId) (h2 : i ∉ ids s.queue) (h3 : i ∉ ids s.dispatchOrder)
    (h4 : i ∉ s.runningIds) (h5 : settledCount s i = 0) :
    i < (step s ev).nextTaskId ∧ i ∉ ids (step s ev).queue ∧
    i ∉ ids (step s ev).dispatchOrder ∧ i ∉ (step s ev).runningIds ∧
    settledCount (step s ev) i = 0 := by
  cases ev with
  | add p =>
    simp only [step]
    have hne : i ≠ s.nextTaskId := Nat.ne_of_lt h1
    have hq1 : i ∉ ids (sortByPriorityDesc
        (s.queue ++ [Entry.mk s.nextTaskId (jsOr1 p)])) := by
      intro hmem
      have hperm := (sortByPriorityDesc_perm
        (s.queue ++ [Entry.mk s.nextTaskId (jsOr1 p)])).map Entry.id
      have hmm : i ∈ ids (s.queue ++ [Entry.mk s.nextTaskId (jsOr1 p)]) :=
        hperm.mem_iff.mp hmem
      have hsplit : ids (s.queue ++ [Entry.mk s.nextTaskId (jsOr1 p)]) =
          ids s.queue ++ [s.nextTaskId] := by simp [ids]
      rw [hsplit] at hmm
      rcases List.mem_append.mp hmm with h | h
      · exact h2 h
      · exact hne (List.mem_singleton.mp h)
    have hgp := gone_process { s with nextTaskId := s.nextTaskId + 1, queue := sortByPriorityDesc (s.queue ++ [Entry.mk s.nextTaskId (jsOr1 p)]) } i hq1 h3 h4
    unfold add
    dsimp only
    split
    · refine ⟨?_, hgp.1, hgp.2.1, hgp.2.2, ?_⟩
      · rw [(process_fields _).2.2.2.2.2.1]
        exact Nat.lt_trans h1 (Nat.lt_succ_self _)
      · unfold settledCount
        rw [(process_fields _).1, (process_fields _).2.1]
        exact h5
    · exact ⟨Nat.lt_trans h1 (Nat.lt_succ_self _), hq1, h3, h4, h5⟩
  | start =>
    simp only [step]
    have hgp := gone_process { s with paused := false } i h2 h3 h4
    refine ⟨?_, hgp.1, hgp.2.1, hgp.2.2, ?_⟩
    · rw [show (start s).nextTaskId = s.nextTaskId from (process_fields _).2.2.2.2.2.1]
      exact h1
    · unfold start settledCount
      rw [(process_fields _).1, (process_fields _).2.1]
      exact h5
  | pause => exact ⟨h1, h2, h3, h4, h5⟩
  | clear => exact ⟨h1, by simp [step, clear, ids], h3, h4, h5⟩
  | onEmpty =>
    simp only [step]
    unfold onEmpty
    dsimp only
    split
    · refine ⟨?_, ?_, ?_, ?_, ?_⟩
      · rw [(checkEmpty_fields _).2.2.2.2.2.2.1]
        exact h1
      · rw [(checkEmpty_fields _).1]
        exact h2
      · rw [(checkEmpty_fields _).2.2.1]
        exact h3
      · rw [(checkEmpty_fields _).2.1]
        exact h4
      · unfold settledCount
        rw [(checkEmpty_fields _).2.2.2.2.1, (checkEmpty_fields _).2.2.2.2.2.1]
        exact h5
    · exact ⟨h1, h2, h3, h4, h5⟩
  | settle j jok =>
    simp only [step]
    by_cases hj : j ∈ s.runningIds
    · have hij : i ≠ j := fun h => h4 (h ▸ hj)
      have hcnt : s.resolves.count i = 0 ∧ s.rejects.count i = 0 := by
        unfold settledCount at h5
        rw [List.count_append] at h5
        omega
      have hjc : ([j] : List Nat).count i = 0 :=
        List.count_eq_zero.mpr (by simp [hij])
      have hX4 : i ∉ s.runningIds.erase j := fun hm =>
        h4 (List.erase_subset j s.runningIds hm)
      cases jok with
      | true =>
        rw [settle_true_eq s j hj]
        refine ⟨?_, ?_, ?_, ?_, ?_⟩
        · rw [(checkEmpty_fields _).2.2.2.2.2.2.1, (process_fields _).2.2.2.2.2.1]
          exact h1
        · rw [(checkEmpty_fields _).1]
          exact (gone_process { s with resolves := s.resolves ++ [j], runningIds := s.runningIds.erase j } i h2 h3 hX4).1
        · rw [(checkEmpty_fields _).2.2.1]
          exact (gone_process { s with resolves := s.resolves ++ [j], runningIds := s.runningIds.erase j } i h2 h3 hX4).2.1
        · rw [(checkEmpty_fields _).2.1]
          exact (gone_process { s with resolves := s.resolves ++ [j], runningIds := s.runningIds.erase j } i h2 h3 hX4).2.2
        · unfold settledCount
          rw [(checkEmpty_fields _).2.2.2.2.1, (checkEmpty_fields _).2.2.2.2.2.1,
            (process_fields _).1, (process_fields _).2.1]
          show ((s.resolves ++ [j]) ++ s.rejects).count i = 0
          rw [List.count_append, List.count_append, hcnt.1, hcnt.2, hjc]
      | false =>
        rw [settle_false_eq s j hj]
        refine ⟨?_, ?_, ?_, ?_, ?_⟩
        · rw [(checkEmpty_fields _).2.2.2.2.2.2.1, (process_fields _).2.2.2.2.2.1]
          exact h1
        · rw [(checkEmpty_fields _).1]
          exact (gone_process { s with rejects := s.rejects ++ [j], runningIds := s.runningIds.erase j } i h2 h3 hX4).1
        · rw [(checkEmpty_fields _).2.2.1]
          exact (gone_process { s with rejects := s.rejects ++ [j], runningIds := s.runningIds.erase j } i h2 h3 hX4).2.1
        · rw [(checkEmpty_fields _).2.1]
          exact (gone_process { s with rejects := s.rejects ++ [j], runningIds := s.runningIds.erase j } i h2 h3 hX4).2.2
        · unfold settledCount
          rw [(checkEmpty_fields _).2.2.2.2.1, (checkEmpty_fields _).2.2.2.2.2.1,
            (process_fields _).1, (process_fields _).2.1]
          show (s.resolves ++ (s.rejects ++ [j])).count i = 0
          rw [List.count_append, List.count_append, hcnt.1, hcnt.2, hjc]
    · rw [settle_not_running s j jok hj]
      exact ⟨h1, h2, h3, h4, h5⟩

theorem gone_run (evs : List Ev) : ∀ (s : QState) (i : Nat),
    i < s.nextTaskId → i ∉ ids s.queue → i ∉ ids s.dispatchOrder →
    i ∉ s.runningIds → settledCount s i = 0 →
    i < (run s evs).nextTaskId ∧ i ∉ ids (run s evs).queue ∧
    i ∉ ids (run s evs).dispatchOrder ∧ i ∉ (run s evs).runningIds ∧
    settledCount (run s evs) i = 0 := by
  induction evs with
  | nil => intro s i h1 h2 h3 h4 h5; exact ⟨h1, h2, h3, h4, h5⟩
  | cons ev evs ih =>
    intro s i h1 h2 h3 h4 h5
    have hstep := gone_step s ev i h1 h2 h3 h4 h5
    have hr : run s (ev :: evs) = run (step s ev) evs := by simp [run]
    rw [hr]
    exact ih _ i hstep.1 hstep.2.1 hstep.2.2.1 hstep.2.2.2.1 hstep.2.2.2.2

end AsyncQueue

namespace AsyncQueue

/-- C7: `clear()` empties the backlog immediately (`size = 0`) while leaving
the running set, the dispatch log and all settlement logs untouched — so
already-running tasks are unaffected — and for any entry still in the
backlog at the moment of the clear, no continuation of the run ever
dispatches it or settles its completion handle. -/
theorem clear_discards_silently (c : Option Nat) (a : Option Bool)
    (evs0 evs1 : List Ev) (e : Entry)
    (hmem : e ∈ (run (mkQueue c a) evs0).queue) :
    (clear (run (mkQueue c a) evs0)).queue = [] ∧
    (clear (run (mkQueue c a) evs0)).runningIds = (run (mkQueue c a) evs0).runningIds ∧
    (clear (run (mkQueue c a) evs0)).dispatchOrder =
      (run (mkQueue c a) evs0).dispatchOrder ∧
    (clear (run (mkQueue c a) evs0)).resolves = (run (mkQueue c a) evs0).resolves ∧
    (clear (run (mkQueue c a) evs0)).rejects = (run (mkQueue c a) evs0).rejects ∧
    e.id ∉ ids (run (clear (run (mkQueue c a) evs0)) evs1).dispatchOrder ∧
    settledCount (run (clear (run (mkQueue c a) evs0)) evs1) e.id = 0 := by
  have hinv := inv_run evs0 _ (inv_mkQueue c a)
  have h1 : e.id < (run (mkQueue c a) evs0).nextTaskId := hinv.queue_lt e hmem
  have h3 : e.id ∉ ids (run (mkQueue c a) evs0).dispatchOrder :=
    hinv.queue_disp e hmem
  have h0 : (ids (run (mkQueue c a) evs0).dispatchOrder).count e.id = 0 :=
    List.count_eq_zero.mpr h3
  have hc := hinv.perm.count_eq e.id
  rw [h0, List.append_assoc, List.count_append, List.count_append] at hc
  have h4 : e.id ∉ (run (mkQueue c a) evs0).runningIds :=
    List.count_eq_zero.mp (by omega)
  have h5 : settledCount (run (mkQueue c a) evs0) e.id = 0 := by
    unfold settledCount
    rw [List.count_append]
    omega
  have hgone := gone_run evs1 (clear (run (mkQueue c a) evs0)) e.id h1
    (by simp [clear, ids]) h3 h4 h5
  exact ⟨rfl, rfl, rfl, rfl, rfl, hgone.2.2.1, hgone.2.2.2.2⟩

/-- Witness for C7: clearing the single backlog entry of a fresh
`autoStart: false` queue, then adding, starting and settling a later task,
never dispatches or settles the cleared entry. -/
theorem clear_discards_silently_witness :
    (clear (run (mkQueue none (some false)) [Ev.add none])).queue = [] ∧
    0 ∉ ids (run (clear (run (mkQueue none (some false)) [Ev.add none]))
      [Ev.add none, Ev.start, Ev.settle 1 true]).dispatchOrder ∧
    settledCount (run (clear (run (mkQueue none (some false)) [Ev.add none]))
      [Ev.add none, Ev.start, Ev.settle 1 true]) 0 = 0 := by
  have h := clear_discards_silently none (some false) [Ev.add none]
    [Ev.add none, Ev.start, Ev.settle 1 true] (Entry.mk 0 1) (by decide)
  exact ⟨h.1, h.2.2.2.2.2.1, h.2.2.2.2.2.2⟩

end AsyncQueue

namespace AsyncQueue

theorem processGo_starts (fuel : Nat) (s : QState)
    (hc : s.runningIds.length < s.concurrency) (hq : s.queue ≠ [])
    (hf : 1 ≤ fuel) :
    s.runningIds.length < (processGo fuel s).runningIds.length := by
  cases fuel with
  | zero => omega
  | succ fuel =>
    cases hqe : s.queue with
    | nil => exact absurd hqe hq
    | cons e rest =>
      simp only [processGo, hc, hqe, if_pos]
      obtain ⟨k, -, -, hr, -⟩ := processGo_spec fuel
        { s with queue := rest, runningIds := s.runningIds ++ [e.id],
                 dispatchOrder := s.dispatchOrder ++ [e] }
      rw [hr]
      simp only [List.length_append, List.length_cons]
      omega

theorem processGo_head (t : List Entry) (e : Entry) (s : QState)
    (hq : s.queue = e :: t) (hc : s.runningIds.length < s.concurrency) :
    ∃ k, (processGo s.queue.length s).dispatchOrder =
        s.dispatchOrder ++ e :: t.take k ∧
      (processGo s.queue.length s).queue = t.drop k := by
  rw [hq, List.length_cons]
  simp only [processGo, hc, hq, if_pos]
  obtain ⟨k, -, hq2, -, hd2, -⟩ := processGo_spec t.length
    { s with queue := t, runningIds := s.runningIds ++ [e.id],
             dispatchOrder := s.dispatchOrder ++ [e] }
  refine ⟨k, ?_, ?_⟩
  · rw [hd2]
    simp [List.append_assoc]
  · rw [hq2]

/-- C8: on a non-paused queue with auto-start enabled and a free
concurrency slot, `add` dispatches synchronously: by the time `add`
returns, the running count has strictly increased, and if the new entry has
strictly highest priority it is itself the next entry appended to the
dispatch log and is no longer in the backlog. -/
theorem add_dispatches_synchronously (s : QState) (p : Option Int)
    (ha : s.autoStart = true) (hp : s.paused = false)
    (hc : s.runningIds.length < s.concurrency) :
    s.runningIds.length < (add s p).runningIds.length ∧
    ((∀ x ∈ s.queue, x.priority < jsOr1 p) →
      (∃ rest, (add s p).dispatchOrder =
        s.dispatchOrder ++ Entry.mk s.nextTaskId (jsOr1 p) :: rest) ∧
      Entry.mk s.nextTaskId (jsOr1 p) ∉ (add s p).queue) := by
  have heq : add s p = _process { s with nextTaskId := s.nextTaskId + 1, queue := sortByPriorityDesc (s.queue ++ [Entry.mk s.nextTaskId (jsOr1 p)]) } := by
    unfold add
    dsimp only
    rw [if_pos (by show (s.autoStart && !s.paused) = true; rw [ha, hp]; rfl)]
  have heq2 : _process { s with nextTaskId := s.nextTaskId + 1, queue := sortByPriorityDesc (s.queue ++ [Entry.mk s.nextTaskId (jsOr1 p)]) } = processGo (sortByPriorityDesc (s.queue ++ [Entry.mk s.nextTaskId (jsOr1 p)])).length { s with nextTaskId := s.nextTaskId + 1, queue := sortByPriorityDesc (s.queue ++ [Entry.mk s.nextTaskId (jsOr1 p)]) } := by
    unfold _process
    rw [if_neg (by show ¬(s.paused = true); rw [hp]; simp)]
  have hlen : (sortByPriorityDesc (s.queue ++ [Entry.mk s.nextTaskId (jsOr1 p)])).length = s.queue.length + 1 := by
    rw [(sortByPriorityDesc_perm _).length_eq]
    simp
  rw [heq, heq2]
  constructor
  · refine processGo_starts
      (sortByPriorityDesc (s.queue ++ [Entry.mk s.nextTaskId (jsOr1 p)])).length
      { s with nextTaskId := s.nextTaskId + 1, queue := sortByPriorityDesc (s.queue ++ [Entry.mk s.nextTaskId (jsOr1 p)]) }
      (by exact hc) ?_ ?_
    · show sortByPriorityDesc (s.queue ++ [Entry.mk s.nextTaskId (jsOr1 p)]) ≠ []
      exact List.ne_nil_of_length_pos (by rw [hlen]; omega)
    · rw [hlen]
      omega
  · intro hmax
    have hsort : sortByPriorityDesc (s.queue ++ [Entry.mk s.nextTaskId (jsOr1 p)]) =
        Entry.mk s.nextTaskId (jsOr1 p) :: sortByPriorityDesc s.queue :=
      sortByPriorityDesc_append_max s.queue _ hmax
    obtain ⟨k, hd, hq⟩ := processGo_head (sortByPriorityDesc s.queue)
      (Entry.mk s.nextTaskId (jsOr1 p))
      { s with nextTaskId := s.nextTaskId + 1, queue := sortByPriorityDesc (s.queue ++ [Entry.mk s.nextTaskId (jsOr1 p)]) }
      (by exact hsort) (by exact hc)
    refine ⟨⟨(sortByPriorityDesc s.queue).take k, by exact hd⟩, ?_⟩
    rw [hq]
    intro hmem
    have hm2 : Entry.mk s.nextTaskId (jsOr1 p) ∈ sortByPriorityDesc s.queue :=
      List.drop_subset k _ hmem
    have hm3 := mem_sortByPriorityDesc.mp hm2
    have := hmax _ hm3
    exact absurd this (lt_irrefl _)

end AsyncQueue

namespace AsyncQueue

/-- Witness for C8 on a fresh queue with `concurrency = 2`: the first `add`
dispatches its own entry before returning. -/
theorem add_dispatches_synchronously_witness :
    0 < (add (mkQueue (some 2) none) (some 5)).runningIds.length ∧
    (∃ rest, (add (mkQueue (some 2) none) (some 5)).dispatchOrder =
      [] ++ Entry.mk 0 5 :: rest) := by
  have h := add_dispatches_synchronously (mkQueue (some 2) none) (some 5)
    rfl rfl (by decide)
  refine ⟨h.1, ?_⟩
  obtain ⟨r, hr⟩ := (h.2 (by intro x hx; exact absurd hx (List.not_mem_nil x))).1
  exact ⟨r, by rw [hr]; rfl⟩

/-- C9: a task added with explicit priority 0 is stored with the default
priority 1 (the code takes `options.priority || 1`, and `0` is falsy), so
`add` with priority 0 produces exactly the same state as `add` with no
priority or with priority 1; consequently such a task is ordered identically
to default-priority tasks and ahead of any negative-priority task, as the
concrete backlog `[1, -5]` after admitting priorities `-5` then `0` shows. -/
theorem priority_zero_defaults_to_one (s : QState) :
    add s (some 0) = add s none ∧
    add s (some 0) = add s (some 1) ∧
    (run (mkQueue none (some false))
      [Ev.add (some (-5)), Ev.add (some 0)]).queue.map Entry.priority
      = [1, -5] := by
  refine ⟨?_, ?_, by decide⟩
  · show add s (some 0) = add s none
    unfold add
    rw [show jsOr1 (some 0) = jsOr1 none from by decide]
  · show add s (some 0) = add s (some 1)
    unfold add
    rw [show jsOr1 (some 0) = jsOr1 (some 1) from by decide]

/-- C10: the admission re-sort is stable (ECMAScript guarantees
`Array.prototype.sort` stability) with a priority-only comparator, so in
every reachable state the backlog is ordered by strictly descending
priority with equal-priority entries in admission-id order; dispatch takes
the head, hence equal-priority tasks are dispatched first-in-first-out, as
the concrete trace of three equal-priority tasks dispatched `0, 1, 2`
shows. -/
theorem equal_priority_fifo (c : Option Nat) (a : Option Bool)
    (evs : List Ev) :
    (run (mkQueue c a) evs).queue.Pairwise entryLE ∧
    (run (mkQueue (some 1) (some false))
      [Ev.add (some 2), Ev.add (some 2), Ev.add (some 2), Ev.start,
       Ev.settle 0 true, Ev.settle 1 true, Ev.settle 2 true]).dispatchOrder.map
      Entry.id = [0, 1, 2] := by
  constructor
  · exact (inv_run evs _ (inv_mkQueue c a)).sorted
  · decide

end AsyncQueue

namespace AsyncQueue

/-- Witness for C4: at the state with task 0 running, rejecting task 0
leaves the same backlog as resolving it, and task 1's resolve count is
untouched either way. -/
theorem task_failure_contained_witness :
    (settle (run (mkQueue (some 1) none) [Ev.add none]) 0 false).queue =
      (settle (run (mkQueue (some 1) none) [Ev.add none]) 0 true).queue ∧
    (settle (run (mkQueue (some 1) none) [Ev.add none]) 0 false).resolves.count 1 =
      (settle (run (mkQueue (some 1) none) [Ev.add none]) 0 true).resolves.count 1 := by
  have h := task_failure_contained (run (mkQueue (some 1) none) [Ev.add none]) 0
  exact ⟨h.1.1, (h.1.2.2.2.2.2.2 1 (by decide)).1⟩

end AsyncQueue
